import Mathlib

/-!
Verification of the cem3 concurrency benchmark suite (Python reference
implementation): fanout, pingpong, skynet and fibonacci harnesses.

Each Python harness is shallowly embedded:

* the fanout worker loop (`src/benchmarks/fanout/python.py`, `worker`) becomes
  `workerRun`, a function on the FIFO-ordered subsequence of messages the
  worker dequeues; concurrency is modelled by quantifying over all schedules
  (assignments of each dequeued message to a worker), which is faithful
  because the shared queue is FIFO with a single producer, so the sequence of
  dequeued values is fixed and only the consumer of each message varies;
* the pingpong harness (`src/benchmarks/pingpong/python.py`) becomes a
  small-step transition system `PPStep` over explicit states (two queues,
  both roles' program counters), with reachability `PPReachable`;
* the skynet recursion (`src/benchmarks/skynet/python.py`, `skynet`) becomes
  the fuel-indexed `skynetF`, where `none` models divergence / running out of
  fuel;
* the fibonacci harness (`src/benchmarks/fibonacci/python.py`) is embedded
  directly (`fib_naive`, `fib_fast`) together with its printed output,
  modelled as a list of abstract output lines.
-/

/-! ### Fanout harness (src/benchmarks/fanout/python.py) -/

/-- The fanout worker loop (`worker` in src/benchmarks/fanout/python.py),
applied to the FIFO subsequence of messages this worker dequeues, with the
running private counter `count`.  The worker loops: it gets a value; if the
value is negative (sentinel test `val < 0`) it puts `count` on the done queue
and breaks, leaving the rest of its subsequence unconsumed; otherwise it
increments `count` and continues.  `some (c, rest)` means the worker
terminated reporting `c` with `rest` not consumed; `none` means the worker
never received a sentinel (it would block forever on `get`). -/
def workerRun : List Int → Nat → Option (Nat × List Int)
  | [], _ => none
  | v :: rest, count => if v < 0 then some (count, rest) else workerRun rest (count + 1)

/-- The payload messages the fanout producer puts on the work channel:
the integers 0..N-1 (`producer` in src/benchmarks/fanout/python.py). -/
def fanoutPayloads (N : Nat) : List Int :=
  (List.range N).map (fun (i : Nat) => (i : Int))

/-- The full FIFO content of the work channel over a run of `main` in
src/benchmarks/fanout/python.py: the N payloads 0..N-1 followed by exactly W
sentinels (-1). -/
def fanoutMsgs (N W : Nat) : List Int :=
  fanoutPayloads N ++ List.replicate W (-1)

/-- Given the dequeue schedule `σ` (for each dequeued message, in FIFO order,
the index of the worker that dequeues it), the subsequence of messages worker
`w` receives. -/
def assigned (msgs : List Int) (σ : List Nat) (w : Nat) : List Int :=
  ((msgs.zip σ).filter (fun p => p.2 == w)).map Prod.fst

theorem workerRun_nonneg_cons (v : Int) (rest : List Int) (count : Nat)
    (h : ¬ v < 0) : workerRun (v :: rest) count = workerRun rest (count + 1) := by
  simp [workerRun, h]

theorem workerRun_neg_cons (v : Int) (rest : List Int) (count : Nat)
    (h : v < 0) : workerRun (v :: rest) count = some (count, rest) := by
  simp [workerRun, h]

/-- A worker that consumes exactly its assigned subsequence reported the
number of non-sentinel messages in it, and that subsequence holds exactly one
sentinel (its last element). -/
theorem workerRun_eq_counts (l : List Int) :
    ∀ c d, workerRun l c = some (d, []) →
      d = c + l.countP (fun v => !(decide (v < 0))) ∧
      l.countP (fun v => decide (v < 0)) = 1 := by
  induction l with
  | nil => intro c d h; simp [workerRun] at h
  | cons v rest ih =>
    intro c d h
    by_cases hv : v < 0
    · rw [workerRun_neg_cons v rest c hv] at h
      injection h with h'
      injection h' with hcd hrest
      subst hrest
      refine ⟨?_, ?_⟩
      · rw [← hcd]; simp [List.countP_cons, hv]
      · simp [List.countP_cons, hv]
    · rw [workerRun_nonneg_cons v rest c hv] at h
      obtain ⟨h1, h2⟩ := ih (c + 1) d h
      constructor
      · rw [h1]; simp [List.countP_cons, hv]; omega
      · simp [List.countP_cons, hv, h2]

/-- Summing a Boolean count over the per-worker filtered subsequences of a
zipped message/schedule list recovers the count over the whole list, provided
every schedule entry names a worker below W. -/
theorem sum_countP_assigned (q : Int → Bool) (W : Nat) :
    ∀ l : List (Int × Nat), (∀ p ∈ l, p.2 < W) →
      (∑ w ∈ Finset.range W, ((l.filter (fun p => p.2 == w)).map Prod.fst).countP q)
        = l.countP (fun p => q p.1) := by
  intro l
  induction l with
  | nil => intro _; simp
  | cons a t ih =>
    intro hlt
    have ha : a.2 < W := hlt a (List.mem_cons_self a t)
    have ht : ∀ p ∈ t, p.2 < W := fun p hp => hlt p (List.mem_cons_of_mem a hp)
    have hsplit : ∀ w, ((a :: t).filter (fun p => p.2 == w)).map Prod.fst
        = (if a.2 = w then [a.1] else []) ++ (t.filter (fun p => p.2 == w)).map Prod.fst := by
      intro w
      by_cases hw : a.2 = w
      · simp [List.filter_cons, hw]
      · simp [List.filter_cons, hw]
    calc (∑ w ∈ Finset.range W, (((a :: t).filter (fun p => p.2 == w)).map Prod.fst).countP q)
        = ∑ w ∈ Finset.range W,
            (((if a.2 = w then [a.1] else []).countP q)
              + ((t.filter (fun p => p.2 == w)).map Prod.fst).countP q) := by
          refine Finset.sum_congr rfl (fun w _ => ?_)
          rw [hsplit w, List.countP_append]
      _ = (∑ w ∈ Finset.range W, ((if a.2 = w then [a.1] else []).countP q))
            + ∑ w ∈ Finset.range W, ((t.filter (fun p => p.2 == w)).map Prod.fst).countP q := by
          rw [Finset.sum_add_distrib]
      _ = (if q a.1 then 1 else 0) + t.countP (fun p => q p.1) := by
          rw [ih ht]
          congr 1
          have : ∀ w ∈ Finset.range W,
              ((if a.2 = w then [a.1] else []).countP q)
                = if w = a.2 then (if q a.1 then 1 else 0) else 0 := by
            intro w _
            by_cases hw : a.2 = w
            · subst hw; simp [List.countP_cons]
            · have : ¬ w = a.2 := fun hc => hw hc.symm
              simp [hw, this]
          rw [Finset.sum_congr rfl this, Finset.sum_ite_eq' (Finset.range W)]
          simp [Finset.mem_range.mpr ha]
      _ = (a :: t).countP (fun p => q p.1) := by
          rw [List.countP_cons]
          by_cases hq : q a.1
          · simp [hq]; omega
          · simp [hq]

theorem mem_fanoutPayloads_nonneg (N : Nat) (a : Int) (ha : a ∈ fanoutPayloads N) :
    ¬ a < 0 := by
  rw [fanoutPayloads, List.mem_map] at ha
  obtain ⟨i, _, hi⟩ := ha
  omega

theorem fanoutPayloads_length (N : Nat) : (fanoutPayloads N).length = N := by
  rw [fanoutPayloads, List.length_map, List.length_range]

theorem fanoutMsgs_length (N W : Nat) : (fanoutMsgs N W).length = N + W := by
  rw [fanoutMsgs, List.length_append, fanoutPayloads_length, List.length_replicate]

theorem fanoutMsgs_countP_sentinel (N W : Nat) :
    (fanoutMsgs N W).countP (fun v => decide (v < 0)) = W := by
  rw [fanoutMsgs, List.countP_append]
  have h1 : (fanoutPayloads N).countP (fun v => decide (v < 0)) = 0 := by
    rw [List.countP_eq_zero]
    intro a ha
    simpa using mem_fanoutPayloads_nonneg N a ha
  have h2 : (List.replicate W (-1 : Int)).countP (fun v => decide (v < 0)) = W := by
    rw [List.countP_eq_length.mpr]
    · exact List.length_replicate W (-1)
    · intro a ha
      rw [List.eq_of_mem_replicate ha]
      decide
  rw [h1, h2]
  omega

theorem fanoutMsgs_countP_payload (N W : Nat) :
    (fanoutMsgs N W).countP (fun v => !(decide (v < 0))) = N := by
  rw [fanoutMsgs, List.countP_append]
  have h1 : (fanoutPayloads N).countP (fun v => !(decide (v < 0))) = N := by
    rw [List.countP_eq_length.mpr]
    · exact fanoutPayloads_length N
    · intro a ha
      simpa using mem_fanoutPayloads_nonneg N a ha
  have h2 : (List.replicate W (-1 : Int)).countP (fun v => !(decide (v < 0))) = 0 := by
    rw [List.countP_eq_zero]
    intro a ha
    rw [List.eq_of_mem_replicate ha]
    decide
  rw [h1, h2]
  omega

/-- C1 — Fanout harness: for every message count N ≥ 0 and worker count
W ≥ 1, when the work channel carries the payloads 0..N-1 followed by exactly
W sentinels, and every one of the W workers runs to termination consuming
exactly its scheduled share of the messages, the sum of the W partial counts
put on the results channel (the reported result) equals N — for every
dequeue schedule `σ`, i.e. under every interleaving of the workers. -/
theorem fanout_sum_eq_N (N W : Nat) (σ : List Nat) (counts : Nat → Nat)
    (_hW : 1 ≤ W)
    (hlen : σ.length = N + W)
    (hσ : ∀ x ∈ σ, x < W)
    (hrun : ∀ w < W, workerRun (assigned (fanoutMsgs N W) σ w) 0 = some (counts w, [])) :
    ∑ w ∈ Finset.range W, counts w = N := by
  have hmlen : (fanoutMsgs N W).length = N + W := fanoutMsgs_length N W
  have hcount : ∀ w ∈ Finset.range W,
      counts w = (assigned (fanoutMsgs N W) σ w).countP (fun v => !(decide (v < 0))) := by
    intro w hw
    have := (workerRun_eq_counts (assigned (fanoutMsgs N W) σ w) 0 (counts w)
      (hrun w (Finset.mem_range.mp hw))).1
    omega
  rw [Finset.sum_congr rfl hcount]
  have hzip : ∀ p ∈ (fanoutMsgs N W).zip σ, p.2 < W := by
    intro p hp
    exact hσ p.2 (List.of_mem_zip hp).2
  have hmain := sum_countP_assigned (fun v => !(decide (v < 0))) W
    ((fanoutMsgs N W).zip σ) hzip
  rw [show (fun w => (assigned (fanoutMsgs N W) σ w).countP (fun v => !(decide (v < 0))))
        = fun w => ((((fanoutMsgs N W).zip σ).filter (fun p => p.2 == w)).map
            Prod.fst).countP (fun v => !(decide (v < 0))) from rfl]
  rw [hmain]
  have hfst : ((fanoutMsgs N W).zip σ).map Prod.fst = fanoutMsgs N W :=
    List.map_fst_zip _ _ (by omega)
  calc ((fanoutMsgs N W).zip σ).countP (fun p => !(decide (p.1 < 0)))
      = (((fanoutMsgs N W).zip σ).map Prod.fst).countP (fun v => !(decide (v < 0))) := by
        rw [List.countP_map]; rfl
    _ = N := by rw [hfst]; exact fanoutMsgs_countP_payload N W

/-- Witness for C1 at N = 2, W = 2 with the schedule that sends both
payloads and the first sentinel to worker 0 and the second sentinel to
worker 1. -/
theorem fanout_sum_eq_N_witness :
    ∑ w ∈ Finset.range 2, (fun w => if w = 0 then 2 else 0) w = 2 :=
  fanout_sum_eq_N 2 2 [0, 0, 0, 1] (fun w => if w = 0 then 2 else 0)
    (by decide) (by decide) (by decide) (by decide)

theorem workerRun_payloads_append_sentinel (pre : List Int)
    (hpre : ∀ v ∈ pre, ¬ v < 0) :
    ∀ c, workerRun (pre ++ [(-1 : Int)]) c = some (c + pre.length, []) := by
  induction pre with
  | nil =>
    intro c
    simp [workerRun]
  | cons v t ih =>
    intro c
    have hv : ¬ v < 0 := hpre v (List.mem_cons_self v t)
    have ht : ∀ u ∈ t, ¬ u < 0 := fun u hu => hpre u (List.mem_cons_of_mem v hu)
    rw [List.cons_append, workerRun_nonneg_cons v (t ++ [(-1 : Int)]) c hv, ih ht (c + 1)]
    simp
    omega

/-- C5 — Fanout worker sentinel protocol: -1 is never one of the payloads
the producer puts on the work channel; a worker receiving a payload (which
is non-sentinel) increments its private counter and continues; a worker
receiving the sentinel -1 reports its counter on the results channel
(`some (c, rest)`: it reports `c`) and terminates, consuming nothing further;
and a worker whose received sequence is payloads followed by one sentinel
terminates after that single sentinel, reporting the number of payloads. -/
theorem fanout_worker_sentinel_protocol (N : Nat) (c : Nat) (pre rest : List Int)
    (hpre : ∀ v ∈ pre, v ∈ fanoutPayloads N) :
    (-1 : Int) ∉ fanoutPayloads N
    ∧ (∀ v ∈ fanoutPayloads N, workerRun (v :: rest) c = workerRun rest (c + 1))
    ∧ workerRun ((-1 : Int) :: rest) c = some (c, rest)
    ∧ workerRun (pre ++ [(-1 : Int)]) 0 = some (pre.length, []) := by
  refine ⟨?_, ?_, ?_, ?_⟩
  · intro hmem
    exact mem_fanoutPayloads_nonneg N (-1) hmem (by decide)
  · intro v hv
    exact workerRun_nonneg_cons v rest c (mem_fanoutPayloads_nonneg N v hv)
  · exact workerRun_neg_cons (-1) rest c (by decide)
  · have h := workerRun_payloads_append_sentinel pre
      (fun v hv => mem_fanoutPayloads_nonneg N v (hpre v hv)) 0
    rw [h]
    simp

/-- Witness for C5 at N = 3 with a worker that received payloads 0 and 2
(in that order) and then the sentinel. -/
theorem fanout_worker_sentinel_protocol_witness :
    (-1 : Int) ∉ fanoutPayloads 3
    ∧ (∀ v ∈ fanoutPayloads 3, workerRun (v :: [(1 : Int)]) 0 = workerRun [(1 : Int)] (0 + 1))
    ∧ workerRun ((-1 : Int) :: [(1 : Int)]) 0 = some (0, [(1 : Int)])
    ∧ workerRun ([(0 : Int), 2] ++ [(-1 : Int)]) 0 = some (([(0 : Int), 2]).length, []) :=
  fanout_worker_sentinel_protocol 3 0 [0, 2] [1] (by decide)

/-- C10 — The fanout worker's termination test is the sign test `val < 0`,
not an equality test with -1: on receiving any negative value the worker
reports its current count and terminates, so every negative value acts as a
sentinel at the worker's interface. -/
theorem fanout_worker_sign_test (v : Int) (c : Nat) (rest : List Int) (h : v < 0) :
    workerRun (v :: rest) c = some (c, rest) :=
  workerRun_neg_cons v rest c h

/-- Witness for C10 at the negative value -2, which is not the reserved
sentinel -1 and still terminates the worker. -/
theorem fanout_worker_sign_test_witness :
    workerRun ((-2 : Int) :: [(5 : Int)]) 0 = some (0, [(5 : Int)]) :=
  fanout_worker_sign_test (-2) 0 [5] (by decide)

/-! ### Skynet harness (src/benchmarks/skynet/python.py) -/

/-- Awaiting the spawned children and summing their results
(`await asyncio.gather(*tasks)` followed by `sum(results)` in `skynet`):
if any child never completes (`none`), the parent never completes. -/
def gatherSum : List (Option Int) → Option Int
  | [] => some 0
  | r :: rs => r.bind (fun v => (gatherSum rs).map (fun s => v + s))

/-- The recursive `skynet` coroutine of src/benchmarks/skynet/python.py,
indexed by fuel (recursion depth budget); `none` models non-termination
within the given fuel.  `if size == 1: return num`; otherwise
`child_size = size // 10` and the task spawns the ten children
`skynet(num + i * child_size, child_size)` for i = 0..9, awaits them all and
returns the sum of their results. -/
def skynetF : Nat → Int → Nat → Option Int
  | 0, _, _ => none
  | fuel + 1, num, size =>
    if size = 1 then some num
    else
      let child_size := size / 10
      gatherSum ((List.range 10).map
        (fun (i : Nat) => skynetF fuel (num + (i : Int) * (child_size : Int)) child_size))

/-- Closed form of the skynet tree sum at depth k (helper for the proofs):
the recurrence satisfied by the sum of the subtree rooted at offset 0. -/
def skynetClosed : Nat → Int
  | 0 => 0
  | k + 1 => 10 * skynetClosed k + 45 * ((10 : Int) ^ k) ^ 2

theorem gatherSum_map_some (g : Nat → Int) :
    ∀ l : List Nat, gatherSum (l.map (fun i => some (g i))) = some ((l.map g).sum) := by
  intro l
  induction l with
  | nil => rfl
  | cons a t ih => simp [gatherSum, ih]

theorem skynetF_pow (k : Nat) :
    ∀ num : Int, skynetF (k + 1) num ((10 : Nat) ^ k)
      = some (num * (10 : Int) ^ k + skynetClosed k) := by
  induction k with
  | zero =>
    intro num
    simp [skynetF, skynetClosed]
  | succ k ih =>
    intro num
    have hne : ((10 : Nat) ^ (k + 1)) ≠ 1 :=
      Nat.ne_of_gt (Nat.one_lt_pow (Nat.succ_ne_zero k) (by norm_num))
    have hchild : (10 : Nat) ^ (k + 1) / 10 = (10 : Nat) ^ k := by
      rw [pow_succ, Nat.mul_div_cancel _ (by norm_num)]
    rw [show skynetF (k + 1 + 1) num ((10 : Nat) ^ (k + 1))
        = (if (10 : Nat) ^ (k + 1) = 1 then some num
          else gatherSum ((List.range 10).map
            (fun (i : Nat) => skynetF (k + 1)
              (num + (i : Int) * (((10 : Nat) ^ (k + 1) / 10 : Nat) : Int))
              ((10 : Nat) ^ (k + 1) / 10)))) from rfl]
    rw [if_neg hne, hchild]
    have hmap : (List.range 10).map
        (fun (i : Nat) => skynetF (k + 1)
          (num + (i : Int) * (((10 : Nat) ^ k : Nat) : Int)) ((10 : Nat) ^ k))
        = (List.range 10).map
          (fun (i : Nat) => some ((num + (i : Int) * (((10 : Nat) ^ k : Nat) : Int))
            * (10 : Int) ^ k + skynetClosed k)) := by
      refine List.map_congr_left (fun i _ => ?_)
      exact ih (num + (i : Int) * (((10 : Nat) ^ k : Nat) : Int))
    rw [hmap, gatherSum_map_some]
    have hlist : List.range 10 = [0, 1, 2, 3, 4, 5, 6, 7, 8, 9] := by decide
    rw [hlist]
    simp only [List.map_cons, List.map_nil, List.sum_cons, List.sum_nil]
    rw [show skynetClosed (k + 1)
        = 10 * skynetClosed k + 45 * ((10 : Int) ^ k) ^ 2 from rfl]
    push_cast
    ring_nf

theorem two_mul_skynetClosed (k : Nat) :
    2 * skynetClosed k = (10 : Int) ^ k * ((10 : Int) ^ k - 1) := by
  induction k with
  | zero => decide
  | succ k ih =>
    rw [show skynetClosed (k + 1)
        = 10 * skynetClosed k + 45 * ((10 : Int) ^ k) ^ 2 from rfl]
    rw [pow_succ]
    linear_combination 10 * ih

/-- C2 — Skynet harness: for every S = 10^k (k ≥ 0), `skynet(0, S)`
computes S·(S-1)/2 (the fuel k+1 suffices, matching the tree depth k); in
particular skynet(0, 10) = 45 and skynet(0, 100000) = 4999950000. -/
theorem skynet_sum_formula :
    (∀ k : Nat, skynetF (k + 1) 0 ((10 : Nat) ^ k)
        = some (((10 : Int) ^ k * ((10 : Int) ^ k - 1)) / 2))
    ∧ skynetF 2 0 10 = some 45
    ∧ skynetF 6 0 100000 = some 4999950000 := by
  have hmain : ∀ k : Nat, skynetF (k + 1) 0 ((10 : Nat) ^ k)
      = some (((10 : Int) ^ k * ((10 : Int) ^ k - 1)) / 2) := by
    intro k
    rw [skynetF_pow k 0]
    have h2 := two_mul_skynetClosed k
    have : skynetClosed k = ((10 : Int) ^ k * ((10 : Int) ^ k - 1)) / 2 := by omega
    rw [zero_mul, zero_add, this]
  refine ⟨hmain, ?_, ?_⟩
  · have := hmain 1
    norm_num at this
    rw [this]
  · have := hmain 5
    norm_num at this
    rw [this]

/-- C9 — skynet terminates for every offset and every size that is a power
of 10: fuel k+1 (one unit per tree level, since each recursive call divides
the size by 10) always suffices to reach the base case. -/
theorem skynet_terminates (num : Int) (k : Nat) :
    (skynetF (k + 1) num ((10 : Nat) ^ k)).isSome := by
  rw [skynetF_pow k num]
  rfl

/-! ### Fibonacci harness (src/benchmarks/fibonacci/python.py) -/

/-- `fib_naive` from src/benchmarks/fibonacci/python.py: `if n < 2: return n`
(the cases 0 and 1), else `fib_naive(n - 1) + fib_naive(n - 2)`. -/
def fib_naive : Nat → Nat
  | 0 => 0
  | 1 => 1
  | n + 2 => fib_naive (n + 1) + fib_naive n

/-- `fib_fast` from src/benchmarks/fibonacci/python.py: `if n < 2: return n`,
else start from `a, b = 0, 1`, run `a, b = b, a + b` for `n - 1` iterations
(`for _ in range(n - 1)`), and return `b`. -/
def fib_fast (n : Nat) : Nat :=
  if n < 2 then n
  else ((List.range (n - 1)).foldl (fun (p : Nat × Nat) _ => (p.2, p.1 + p.2)) (0, 1)).2

theorem fib_fast_loop (m : Nat) :
    (List.range m).foldl (fun (p : Nat × Nat) _ => (p.2, p.1 + p.2)) (0, 1)
      = (fib_naive m, fib_naive (m + 1)) := by
  induction m with
  | zero => rfl
  | succ m ih =>
    rw [List.range_succ, List.foldl_append, ih]
    simp only [List.foldl_cons, List.foldl_nil]
    rw [show fib_naive (m + 1 + 1) = fib_naive (m + 1) + fib_naive m from rfl,
      Nat.add_comm (fib_naive (m + 1)) (fib_naive m)]

/-- C8 — The iterative `fib_fast` and the naive recursive `fib_naive`
compute the same function on every n ≥ 0. -/
theorem fib_fast_eq_fib_naive (n : Nat) : fib_fast n = fib_naive n := by
  rw [fib_fast]
  by_cases h : n < 2
  · rw [if_pos h]
    interval_cases n <;> rfl
  · rw [if_neg h, fib_fast_loop (n - 1), show n - 1 + 1 = n from by omega]

/-- An output line of a benchmark process (elapsed time abstracted away,
since it is wall-clock): either the normal `BENCH:<suite>:<name>:<result>:…`
line or the `ERROR: expected <X>, got <Y>` diagnostic line. -/
inductive OutLine
  | bench (suite name : String) (result : Nat)
  | error (expected got : Nat)
deriving DecidableEq

/-- The `bench` helper of src/benchmarks/fibonacci/python.py, as the sequence
of lines it prints: it computes `result = func(n)`, always prints its BENCH
line, and then prints the ERROR diagnostic exactly when `result != expected`. -/
def bench (name : String) (n expected : Nat) (func : Nat → Nat) : List OutLine :=
  [OutLine.bench "fibonacci" name (func n)]
    ++ (if func n ≠ expected then [OutLine.error expected (func n)] else [])

/-- The `bench_repeated` helper of src/benchmarks/fibonacci/python.py: it
starts from `result = 0`, runs `result = func(n)` for `iterations` loop
rounds, prints its BENCH line, and prints the ERROR diagnostic exactly when
the final `result != expected`. -/
def bench_repeated (name : String) (n iterations expected : Nat)
    (func : Nat → Nat) : List OutLine :=
  let result := (List.range iterations).foldl (fun _ _ => func n) 0
  [OutLine.bench "fibonacci" name result]
    ++ (if result ≠ expected then [OutLine.error expected result] else [])

/-- `main` of src/benchmarks/fibonacci/python.py: the concatenation of the
sub-tests' outputs, each sub-test running regardless of its predecessors. -/
def fibonacci_main : List OutLine :=
  bench "fib-naive-30" 30 832040 fib_naive
    ++ bench "fib-naive-35" 35 9227465 fib_naive
    ++ bench "fib-fast-30" 30 832040 fib_fast
    ++ bench "fib-fast-50" 50 12586269025 fib_fast
    ++ bench "fib-fast-70" 70 190392490709135 fib_fast
    ++ bench_repeated "fib-naive-20-x1000" 20 1000 6765 fib_naive
    ++ bench_repeated "fib-fast-20-x1000" 20 1000 6765 fib_fast

/-- C7 — Result-mismatch handling: when the computed result `func n` differs
from the analytically known `expected`, the sub-test still prints its normal
BENCH line, then prints the `ERROR: expected <X>, got <Y>` line, and the
following output `rest` (the subsequent sub-tests) still appears — the run
continues rather than aborting; when the result equals `expected`, the
BENCH line is printed with no ERROR line at all. -/
theorem result_mismatch_handling (name : String) (n expected : Nat)
    (func : Nat → Nat) (rest : List OutLine) :
    (func n ≠ expected →
      bench name n expected func ++ rest
        = OutLine.bench "fibonacci" name (func n)
            :: OutLine.error expected (func n) :: rest)
    ∧ (func n = expected →
      bench name n expected func ++ rest
        = OutLine.bench "fibonacci" name (func n) :: rest
      ∧ ∀ e g, OutLine.error e g ∉ bench name n expected func) := by
  constructor
  · intro h
    simp [bench, h]
  · intro h
    constructor
    · simp [bench, h]
    · intro e g hmem
      simp [bench, h] at hmem

/-- Witness for C7: `fib_naive 3 = 2` mismatches the deliberately wrong
expectation 0, producing the BENCH line, then the ERROR line, then the
(empty) remaining output. -/
theorem result_mismatch_handling_witness :
    bench "t" 3 0 fib_naive ++ ([] : List OutLine)
      = OutLine.bench "fibonacci" "t" (fib_naive 3)
          :: OutLine.error 0 (fib_naive 3) :: [] :=
  (result_mismatch_handling "t" 3 0 fib_naive []).1 (by decide)

/-! ### PingPong harness (src/benchmarks/pingpong/python.py) -/

/-- A state of the pingpong run: `sent`/`got` count the initiator's completed
`put`s on ping and `get`s from pong (the `ping` coroutine), `rGot`/`rPut`
count the responder's completed `get`s from ping and `put`s on pong (the
`pong` coroutine), `held` is the value the responder has got from ping but
not yet echoed onto pong, `pingQ`/`pongQ` are the FIFO contents of the two
queues, and `iReads` lists the values the initiator has read from pong, in
order. -/
structure PPState where
  sent : Nat
  got : Nat
  rGot : Nat
  rPut : Nat
  held : Option Int
  pingQ : List Int
  pongQ : List Int
  iReads : List Int
deriving DecidableEq

/-- The initial pingpong state: both queues empty, nothing exchanged. -/
def ppInit : PPState := ⟨0, 0, 0, 0, none, [], [], []⟩

/-- One interleaving step of the pingpong run with N round trips.  The
initiator (`ping` in src/benchmarks/pingpong/python.py) alternates `put(i)`
on the ping queue and a blocking `get()` from the pong queue, for
i = 0..N-1; the responder (`pong`) loops N times: a blocking `get()` from
ping, then `put` of the same value onto pong.  A `get` is enabled only when
its queue is nonempty (blocking receive); `put` is always enabled (unbounded
queue). -/
inductive PPStep (N : Nat) : PPState → PPState → Prop
  | iput (s : PPState) (h1 : s.sent = s.got) (h2 : s.sent < N) :
      PPStep N s { s with sent := s.sent + 1, pingQ := s.pingQ ++ [(s.sent : Int)] }
  | iget (s : PPState) (v : Int) (rest : List Int)
      (h1 : s.got < s.sent) (h2 : s.pongQ = v :: rest) :
      PPStep N s { s with got := s.got + 1, pongQ := rest, iReads := s.iReads ++ [v] }
  | rget (s : PPState) (v : Int) (rest : List Int)
      (h1 : s.held = none) (h2 : s.rGot < N) (h3 : s.pingQ = v :: rest) :
      PPStep N s { s with rGot := s.rGot + 1, pingQ := rest, held := some v }
  | rput (s : PPState) (v : Int) (h1 : s.held = some v) :
      PPStep N s { s with rPut := s.rPut + 1, pongQ := s.pongQ ++ [v], held := none }

/-- A state of the pingpong run reachable from the initial state by some
interleaving of the two roles. -/
def PPReachable (N : Nat) (s : PPState) : Prop :=
  Relation.ReflTransGen (PPStep N) ppInit s

/-- The inductive invariant of the pingpong run: the two roles stay within
one step of each other, the queue contents are the determined segments of
consecutive integers, and the initiator has read exactly 0..got-1. -/
def PPInv (N : Nat) (s : PPState) : Prop :=
  s.got ≤ s.sent ∧ s.sent ≤ s.got + 1 ∧ s.sent ≤ N ∧
  s.rPut ≤ s.rGot ∧ s.rGot ≤ s.rPut + 1 ∧ s.rGot ≤ N ∧
  s.rGot ≤ s.sent ∧ s.got ≤ s.rPut ∧
  s.held = (if s.rGot = s.rPut + 1 then some ((s.rPut : Int)) else none) ∧
  s.pingQ = (List.range' s.rGot (s.sent - s.rGot)).map (fun (i : Nat) => (i : Int)) ∧
  s.pongQ = (List.range' s.got (s.rPut - s.got)).map (fun (i : Nat) => (i : Int)) ∧
  s.iReads = (List.range s.got).map (fun (i : Nat) => (i : Int))

theorem PPInv_init (N : Nat) : PPInv N ppInit := by
  simp [PPInv, ppInit]

theorem PPInv_step {N : Nat} {s t : PPState} (hstep : PPStep N s t)
    (hinv : PPInv N s) : PPInv N t := by
  obtain ⟨h1, h2, h3, h4, h5, h6, h7, h8, hheld, hping, hpong, hreads⟩ := hinv
  cases hstep with
  | iput h1' h2' =>
    have hre : s.rGot = s.sent := by omega
    refine ⟨by dsimp; omega, by dsimp; omega, by dsimp; omega, h4, h5, h6,
      by dsimp; omega, h8, hheld, ?_, hpong, hreads⟩
    dsimp only
    rw [hping, hre]
    simp [List.range'_one]
  | iget v rest h1' h2' =>
    have hq : v :: rest = (List.range' s.got (s.rPut - s.got)).map
        (fun (i : Nat) => (i : Int)) := by rw [← h2', hpong]
    have hpos : 0 < s.rPut - s.got := by
      by_contra hc
      rw [Nat.eq_zero_of_not_pos hc] at hq
      simp at hq
    have hsent : s.sent = s.got + 1 := by omega
    have hrput : s.rPut = s.got + 1 := by omega
    have hone : s.rPut - s.got = 1 := by omega
    rw [hone, List.range'_one] at hq
    simp only [List.map_cons, List.map_nil] at hq
    have hv : v = (s.got : Int) := (List.cons.injEq _ _ _ _ ▸ hq).1
    have hrest : rest = [] := (List.cons.injEq _ _ _ _ ▸ hq).2
    refine ⟨by dsimp; omega, by dsimp; omega, by dsimp; omega,
      h4, h5, h6, by dsimp; omega, by dsimp; omega, hheld, hping, ?_, ?_⟩
    · dsimp only
      rw [hrest]
      rw [show s.rPut - (s.got + 1) = 0 from by omega]
      simp
    · dsimp only
      rw [hreads, hv, List.range_succ]
      simp
  | rget v rest h1' h2' h3' =>
    have hrr : s.rGot = s.rPut := by
      by_contra hc
      rw [if_pos (by omega)] at hheld
      rw [h1'] at hheld
      exact Option.noConfusion hheld
    have hq : v :: rest = (List.range' s.rGot (s.sent - s.rGot)).map
        (fun (i : Nat) => (i : Int)) := by rw [← h3', hping]
    have hpos : 0 < s.sent - s.rGot := by
      by_contra hc
      rw [Nat.eq_zero_of_not_pos hc] at hq
      simp at hq
    obtain ⟨m, hm⟩ : ∃ m, s.sent - s.rGot = m + 1 := ⟨s.sent - s.rGot - 1, by omega⟩
    rw [hm, List.range'_succ] at hq
    simp only [List.map_cons] at hq
    have hv : v = (s.rGot : Int) := (List.cons.injEq _ _ _ _ ▸ hq).1
    have hrest : rest = (List.range' (s.rGot + 1) m).map (fun (i : Nat) => (i : Int)) :=
      (List.cons.injEq _ _ _ _ ▸ hq).2
    refine ⟨h1, h2, h3, by dsimp; omega, by dsimp; omega, by dsimp; omega,
      by dsimp; omega, h8, ?_, ?_, hpong, hreads⟩
    · dsimp only
      rw [if_pos (by omega), hv]
      rw [show s.rGot = s.rPut from hrr]
    · dsimp only
      rw [hrest, show s.sent - (s.rGot + 1) = m from by omega]
  | rput v h1' =>
    have hrr : s.rGot = s.rPut + 1 := by
      by_contra hc
      rw [if_neg hc] at hheld
      rw [h1'] at hheld
      exact Option.noConfusion hheld
    have hv : v = (s.rPut : Int) := by
      rw [if_pos hrr] at hheld
      rw [h1'] at hheld
      exact (Option.some.injEq _ _ ▸ hheld)
    refine ⟨h1, h2, h3, by dsimp; omega, by dsimp; omega, h6, h7,
      by dsimp; omega, ?_, hping, ?_, hreads⟩
    · dsimp only
      rw [if_neg (by omega)]
    · dsimp only
      rw [hpong, hv]
      obtain ⟨m, hm⟩ : ∃ m, s.rPut - s.got = m := ⟨s.rPut - s.got, rfl⟩
      rw [hm, show s.rPut + 1 - s.got = m + 1 from by omega, List.range'_concat]
      rw [show s.got + 1 * m = s.rPut from by omega]
      simp

theorem PPReachable_inv {N : Nat} {s : PPState} (h : PPReachable N s) :
    PPInv N s := by
  induction h with
  | refl => exact PPInv_init N
  | tail _ hstep ih => exact PPInv_step hstep ih

/-- C3 — PingPong harness: in any reachable state in which the initiator has
completed its N round trips, it has read exactly N values from the pong
queue, and the value read on round trip i is exactly the value i it put on
the ping queue for that round trip (the responder echoes unchanged). -/
theorem pingpong_initiator_reads (N : Nat) (s : PPState)
    (hr : PPReachable N s) (hdone : s.got = N) :
    s.iReads = (List.range N).map (fun (i : Nat) => (i : Int))
    ∧ s.iReads.length = N
    ∧ ∀ (i : Nat) (h : i < s.iReads.length), s.iReads[i] = (i : Int) := by
  obtain ⟨_, _, _, _, _, _, _, _, _, _, _, hreads⟩ := PPReachable_inv hr
  rw [hdone] at hreads
  refine ⟨hreads, by rw [hreads]; simp, ?_⟩
  intro i h
  simp only [hreads]
  rw [List.getElem_map, List.getElem_range]

/-- Witness for C3: the unique complete run with N = 1 (iput, rget, rput,
iget), ending in the state where the initiator has read exactly [0]. -/
theorem pingpong_initiator_reads_witness :
    (⟨1, 1, 1, 1, none, [], [], [(0 : Int)]⟩ : PPState).iReads
        = (List.range 1).map (fun (i : Nat) => (i : Int))
    ∧ (⟨1, 1, 1, 1, none, [], [], [(0 : Int)]⟩ : PPState).iReads.length = 1
    ∧ ∀ (i : Nat) (h : i < (⟨1, 1, 1, 1, none, [], [],
          [(0 : Int)]⟩ : PPState).iReads.length),
        (⟨1, 1, 1, 1, none, [], [], [(0 : Int)]⟩ : PPState).iReads[i] = (i : Int) := by
  have st1 : PPStep 1 ppInit ⟨1, 0, 0, 0, none, [(0 : Int)], [], []⟩ :=
    PPStep.iput ppInit rfl (by decide)
  have st2 : PPStep 1 (⟨1, 0, 0, 0, none, [(0 : Int)], [], []⟩ : PPState)
      ⟨1, 0, 1, 0, some 0, [], [], []⟩ :=
    PPStep.rget _ 0 [] rfl (by decide) rfl
  have st3 : PPStep 1 (⟨1, 0, 1, 0, some 0, [], [], []⟩ : PPState)
      ⟨1, 0, 1, 1, none, [], [(0 : Int)], []⟩ :=
    PPStep.rput _ 0 rfl
  have st4 : PPStep 1 (⟨1, 0, 1, 1, none, [], [(0 : Int)], []⟩ : PPState)
      ⟨1, 1, 1, 1, none, [], [], [(0 : Int)]⟩ :=
    PPStep.iget _ 0 [] (by decide) rfl
  have hreach : PPReachable 1 ⟨1, 1, 1, 1, none, [], [], [(0 : Int)]⟩ :=
    Relation.ReflTransGen.head st1 (Relation.ReflTransGen.head st2
      (Relation.ReflTransGen.head st3 (Relation.ReflTransGen.head st4
        Relation.ReflTransGen.refl)))
  exact pingpong_initiator_reads 1 _ hreach rfl

/-- C6 — PingPong lock-step invariant: in every reachable state of a run
with N round trips, at most one value is in flight across the ping and pong
queues combined, and the responder is never more than one round trip ahead
of the initiator's received echoes (it never receives round trip i+1's value
before the initiator has received round trip i's echo). -/
theorem pingpong_lockstep (N : Nat) (s : PPState) (hr : PPReachable N s) :
    s.pingQ.length + s.pongQ.length ≤ 1 ∧ s.rGot ≤ s.got + 1 := by
  obtain ⟨h1, h2, h3, h4, h5, h6, h7, h8, _, hping, hpong, _⟩ := PPReachable_inv hr
  constructor
  · rw [hping, hpong]
    simp only [List.length_map, List.length_range']
    omega
  · omega

/-- Witness for C6 at the initial state of a run with N = 3. -/
theorem pingpong_lockstep_witness :
    ppInit.pingQ.length + ppInit.pongQ.length ≤ 1 ∧ ppInit.rGot ≤ ppInit.got + 1 :=
  pingpong_lockstep 3 ppInit Relation.ReflTransGen.refl

/-! ### Fanout timing window (src/benchmarks/fanout/python.py, main) -/

/-- The observable actions of `main` in src/benchmarks/fanout/python.py, in
program order. -/
inductive FanoutEvent
  | spawnWorkers
  | timerStart
  | produce
  | putSentinels
  | collectResults
  | awaitWorkers
  | timerStop
  | printReport
deriving DecidableEq, BEq

/-- The statement order of `main` in src/benchmarks/fanout/python.py: the
worker tasks are spawned, then `start = time.perf_counter_ns()` is taken,
then the payloads are produced, the sentinels are put, the W results are
collected, the workers are awaited (`asyncio.gather`), the elapsed time is
taken, and the BENCH line is printed. -/
def fanoutMainEvents : List FanoutEvent :=
  [FanoutEvent.spawnWorkers, FanoutEvent.timerStart, FanoutEvent.produce,
    FanoutEvent.putSentinels, FanoutEvent.collectResults, FanoutEvent.awaitWorkers,
    FanoutEvent.timerStop, FanoutEvent.printReport]

/-- C4 counterexample — the claim requires the spawning of the worker tasks
to lie inside the measured window (after the timer start and before the
timer stop); in `main` of src/benchmarks/fanout/python.py the workers are
spawned before `start = time.perf_counter_ns()`, so this fails. -/
theorem fanout_spawn_not_in_timed_window :
    ¬ (fanoutMainEvents.indexOf FanoutEvent.timerStart
        < fanoutMainEvents.indexOf FanoutEvent.spawnWorkers
      ∧ fanoutMainEvents.indexOf FanoutEvent.spawnWorkers
        < fanoutMainEvents.indexOf FanoutEvent.timerStop) := by
  decide

/-- C4 amended — the elapsed time is measured from immediately before
producing to after the await of all W workers completes (collecting the
results and gathering the workers lie inside the window), and the spawning
of the worker tasks happens before the timer starts, so spawn time is
excluded from the measured window. -/
theorem fanout_timing_window :
    fanoutMainEvents.indexOf FanoutEvent.spawnWorkers
      < fanoutMainEvents.indexOf FanoutEvent.timerStart
    ∧ fanoutMainEvents.indexOf FanoutEvent.timerStart + 1
      = fanoutMainEvents.indexOf FanoutEvent.produce
    ∧ fanoutMainEvents.indexOf FanoutEvent.produce
      < fanoutMainEvents.indexOf FanoutEvent.putSentinels
    ∧ fanoutMainEvents.indexOf FanoutEvent.putSentinels
      < fanoutMainEvents.indexOf FanoutEvent.collectResults
    ∧ fanoutMainEvents.indexOf FanoutEvent.collectResults
      < fanoutMainEvents.indexOf FanoutEvent.awaitWorkers
    ∧ fanoutMainEvents.indexOf FanoutEvent.awaitWorkers
      < fanoutMainEvents.indexOf FanoutEvent.timerStop
    ∧ fanoutMainEvents.indexOf FanoutEvent.timerStop
      < fanoutMainEvents.indexOf FanoutEvent.printReport := by
  decide
